import Mathlib

/-!
Verification of the CSV reading/writing library (single header `csv.h`).

The development shallowly embeds the library's data model and algorithms:

* `Dialect` mirrors `csv::Dialect` (delimiter string, quote character,
  double-quote flag, trim set, header flag, skip-empty-rows flag,
  ignored/configured column names, line terminator).
* `split` mirrors `Reader::split`, the character-by-character tokenizer,
  including its inner delimiter-matching loop (with its index mutations),
  the open-quote counter updates, trimming at flush time, the conditional
  end-of-line flush and the pad/truncate step.  Strings are embedded as
  `List Char`; reading `input_string[i]` at `i = size` (well defined in
  C++, yielding the null character) is embedded as appending `nulChar`.
* `parseRowsAux`/`rowTemplate`/`assignFields` mirror the row-assembly part
  of `Reader::read_internal` (the reused row template, the ignored-column
  erasure and the per-field assignment loop).
* `prescanCount`/`readExpectedRows`/`mainLoopCount` mirror the row-count
  pre-scan in `Reader::read` and the bounded main loop.
* `write_row`/`write_header` mirror the writer-side joining logic.
* `use_dialect` mirrors `Reader::use_dialect`.

Reference (specification-side) definitions used for refinement claims are
marked as such in their doc comments.
-/

namespace Csv

/-- The null character: the value of `input_string[i]` when `i` equals the
string size in the C++ source (`std::string::operator[]` at `size()`). -/
def nulChar : Char := Char.ofNat 0

/-- Embedding of `csv::Dialect`.  Field names follow the source.  The
delimiter string and trim set are `List Char`; column-name collections are
`List String`. -/
structure Dialect where
  delimiter_ : List Char
  skip_initial_space_ : Bool
  line_terminator_ : Char
  quote_character_ : Char
  double_quote_ : Bool
  trim_characters_ : List Char
  header_ : Bool
  skip_empty_rows_ : Bool
  ignore_columns_ : List String
  column_names_ : List String

/-- The `Dialect()` default constructor: comma delimiter, `"` quote,
double-quote escaping on, no trimming, header on, empty rows kept. -/
def defaultDialect : Dialect :=
  ⟨[','], false, '\n', '"', true, [], true, false, [], []⟩

/-- The pre-registered "excel" dialect (same settings as the default). -/
def excelDialect : Dialect := defaultDialect

/-- Outcome of the inner delimiter-matching loop of `Reader::split` at one
outer-loop position.

* `plain ch rest`: some (possibly empty) proper prefix of the delimiter
  matched and then character `ch` mismatched; the matched prefix characters
  are consumed without being appended, `ch` is appended by the base case,
  and `rest` is the remaining input after `ch`.
* `offEnd`: the input ran out strictly inside the delimiter sequence; the
  consumed characters are dropped and the base case appends
  `input_string[size]`, i.e. `nulChar`.
* `matched rest`: the full delimiter sequence matched; `rest` is the input
  after the delimiter. -/
inductive StepKind where
  | plain (ch : Char) (rest : List Char)
  | offEnd
  | matched (rest : List Char)

/-- Walk the delimiter and the input in lockstep, reproducing the inner
`for (j ...)` loop's exit classification. -/
def classifyAux : List Char → List Char → StepKind
  | [], l => .matched l
  | _ :: _, [] => .offEnd
  | d0 :: ds, c :: cs => if c = d0 then classifyAux ds cs else .plain c cs

/-- Classification of one outer-loop position.  An empty delimiter never
enters the inner loop: the base case appends the current character. -/
def stepClass (delim : List Char) (l : List Char) : StepKind :=
  if delim.isEmpty then .plain (l.headD nulChar) l.tail else classifyAux delim l

/-- The two quote-counter updates at the end of the outer loop body:
increment when the inspected character equals the quote character,
then decrement when additionally double-quote escaping is on and the
character two places before the end of the accumulator (after the append)
equals it. -/
def quoteUpd (d : Dialect) (sub : List Char) (c : Char) (q : Nat) : Nat :=
  let q1 := if c = d.quote_character_ then q + 1 else q
  if c = d.quote_character_ ∧ d.double_quote_ = true ∧ 2 ≤ sub.length ∧
      sub.getD (sub.length - 2) nulChar = c then q1 - 1 else q1

/-- `Reader::ltrim`: erase leading characters belonging to the trim set. -/
def ltrim (d : Dialect) (s : List Char) : List Char :=
  s.dropWhile (fun ch => d.trim_characters_.contains ch)

/-- `Reader::rtrim`: erase trailing characters belonging to the trim set. -/
def rtrim (d : Dialect) (s : List Char) : List Char :=
  (s.reverse.dropWhile (fun ch => d.trim_characters_.contains ch)).reverse

/-- `Reader::trim`: identity for an empty trim set, else trim both ends. -/
def trim (d : Dialect) (s : List Char) : List Char :=
  if d.trim_characters_.isEmpty then s else ltrim d (rtrim d s)

/-- `trimming_enabled_` as established by `Reader::read`: set exactly when
the trim set is non-empty. -/
def trimmingEnabled (d : Dialect) : Bool := !d.trim_characters_.isEmpty

/-- The value pushed on a flush: `trimming_enabled_ ? trim(sub) : sub`. -/
def flushField (d : Dialect) (s : List Char) : List Char :=
  if trimmingEnabled d then trim d s else s

/-- The last character of the delimiter (the delimiter is non-empty
whenever this is consulted). -/
def dlastOf (d : Dialect) : Char := d.delimiter_.getLastD nulChar

/-- State after one outer-loop iteration of `Reader::split`. -/
structure StepOut where
  rest : List Char
  res : List (List Char)
  sub : List Char
  quotes : Nat

/-- One outer-loop iteration of `Reader::split` on non-empty remaining
input `l`.  Mirrors, case by case:

* a delimiter mismatch (`plain`): the base case appends the mismatching
  character and the quote counter is updated on it;
* running off the end inside the delimiter (`offEnd`): the base case
  appends `nulChar`; the loop then terminates;
* a full delimiter match with even quote counter: flush the (possibly
  trimmed) accumulator, optionally skip one following space when
  `skip_initial_space_` is set, zero the counter, then apply the counter
  updates to the character at the final index (the last delimiter
  character, or the skipped space) against the now-empty accumulator;
* a full delimiter match with odd quote counter: append the last delimiter
  character (the earlier delimiter characters were consumed by the inner
  loop without being appended), advance, and let the base case append the
  following character (`nulChar` at end of input, terminating the loop),
  updating the quote counter on that following character. -/
def splitStep (d : Dialect) (l : List Char) (res : List (List Char))
    (sub : List Char) (q : Nat) : StepOut :=
  match stepClass d.delimiter_ l with
  | .plain ch rest =>
      let sub2 := sub ++ [ch]
      ⟨rest, res, sub2, quoteUpd d sub2 ch q⟩
  | .offEnd =>
      let sub2 := sub ++ [nulChar]
      ⟨[], res, sub2, quoteUpd d sub2 nulChar q⟩
  | .matched rest =>
      if q % 2 = 0 then
        let res2 := res ++ [flushField d sub]
        let skip := d.skip_initial_space_ && (rest.headD nulChar == ' ')
        let cChk := if skip then ' ' else dlastOf d
        ⟨if skip then rest.tail else rest, res2, [], quoteUpd d [] cChk 0⟩
      else
        match rest with
        | [] =>
            let sub2 := sub ++ [dlastOf d, nulChar]
            ⟨[], res, sub2, quoteUpd d sub2 nulChar q⟩
        | c2 :: rest2 =>
            let sub2 := sub ++ [dlastOf d, c2]
            ⟨rest2, res, sub2, quoteUpd d sub2 c2 q⟩

/-- The outer loop of `Reader::split`, iterated with explicit fuel (each
iteration consumes at least one input character, so `input.length` fuel is
always sufficient).  Returns the flushed fields and the accumulator left
at end of input. -/
def splitLoopF (d : Dialect) : Nat → List Char → List (List Char) →
    List Char → Nat → List (List Char) × List Char
  | 0, _, res, sub, _ => (res, sub)
  | _ + 1, [], res, sub, _ => (res, sub)
  | fuel + 1, c :: cs, res, sub, q =>
      let s := splitStep d (c :: cs) res sub q
      splitLoopF d fuel s.rest s.res s.sub s.quotes

/-- The scan of `Reader::split`: the empty-input special case pre-fills
`columns_` empty fields, then the outer loop runs over the input. -/
def splitRaw (d : Dialect) (columns : Nat) (input : List Char) :
    List (List Char) × List Char :=
  splitLoopF d input.length input
    (if input.isEmpty then List.replicate columns [] else []) [] 0

/-- After the loop: flush the remaining accumulator only when non-empty. -/
def splitFlush (d : Dialect) (columns : Nat) (input : List Char) :
    List (List Char) :=
  let p := splitRaw d columns input
  if p.2.isEmpty then p.1 else p.1 ++ [flushField d p.2]

/-- A hypothetical variant that flushes the remaining accumulator
unconditionally; used to state what the conditional flush drops. -/
def splitFlushAll (d : Dialect) (columns : Nat) (input : List Char) :
    List (List Char) :=
  let p := splitRaw d columns input
  p.1 ++ [flushField d p.2]

/-- The final pad/truncate step of `Reader::split`: pad with empty fields
up to `columns_` when short; truncate to `columns_` when long and
`columns_` is non-zero. -/
def padTruncate (columns : Nat) (res : List (List Char)) :
    List (List Char) :=
  if res.length < columns then
    res ++ List.replicate (columns - res.length) []
  else if res.length > columns ∧ columns ≠ 0 then res.take columns
  else res

/-- `Reader::split`: scan, conditional final flush, pad/truncate. -/
def split (d : Dialect) (columns : Nat) (input : List Char) :
    List (List Char) :=
  padTruncate columns (splitFlush d columns input)

/-! ### Specification-side reference definitions -/

/-- Modelled from the spec: the naive reference split of a line on the
delimiter substring `D` ("tokenizing on delimiter `D` yields the same
result as a naive split on `D`"): at each position, if `D` occurs there,
close the current field and continue after it; otherwise the character
belongs to the current field.  Written with explicit fuel (one unit per
step; `l.length` always suffices) so it evaluates by kernel reduction. -/
def naiveSplitSeqF (D : List Char) : Nat → List Char → List (List Char)
  | 0, _ => [[]]
  | _ + 1, [] => [[]]
  | fuel + 1, c :: cs =>
      if D ≠ [] ∧ List.take D.length (c :: cs) = D then
        [] :: naiveSplitSeqF D fuel (List.drop D.length (c :: cs))
      else
        (c :: (naiveSplitSeqF D fuel cs).headD []) ::
          (naiveSplitSeqF D fuel cs).tail

/-- Modelled from the spec: naive split on the substring `D`. -/
def naiveSplitSeq (D : List Char) (l : List Char) : List (List Char) :=
  naiveSplitSeqF D l.length l

/-- Modelled from the spec: naive split on a single delimiter character
(the single-character instance of the naive reference split). -/
def naiveSplitCh (c : Char) : List Char → List (List Char)
  | [] => [[]]
  | x :: xs =>
      if x = c then [] :: naiveSplitCh c xs
      else (x :: (naiveSplitCh c xs).headD []) :: (naiveSplitCh c xs).tail

/-- Drop a trailing empty field, if any (the spec's description of what
the conditional end-of-line flush loses). -/
def dropTrailingEmptyField (fs : List (List Char)) : List (List Char) :=
  match fs.getLast? with
  | some [] => fs.dropLast
  | _ => fs

/-- Modelled from the spec: the reference tokenization of claim C4 —
naive split on the delimiter substring, each field trimmed as configured,
then padded/truncated to the header length. -/
def specNaiveTokenize (d : Dialect) (columns : Nat) (line : List Char) :
    List (List Char) :=
  padTruncate columns ((naiveSplitSeq d.delimiter_ line).map (flushField d))

/-- `needle` occurs as a contiguous substring of the second argument. -/
def containsSeq (needle : List Char) : List Char → Bool
  | [] => needle.isEmpty
  | c :: cs =>
      decide (List.take needle.length (c :: cs) = needle) ||
        containsSeq needle cs

/-! ### Row assembly (`Reader::read_internal`) -/

/-- A `Row` (`std::unordered_map<std::string_view, std::string>`) embedded
as an association list with unique keys; insertion order is irrelevant to
the claims, which are about the key set and the values. -/
abbrev Row := List (String × List Char)

/-- `unordered_map::operator[] =`: update the value when the key is
present, insert otherwise. -/
def mapUpsert : Row → String → List Char → Row
  | [], k, v => [(k, v)]
  | (k0, v0) :: t, k, v =>
      if k0 = k then (k, v) :: t else (k0, v0) :: mapUpsert t k v

/-- The keys of a row. -/
def rowKeys (r : Row) : List String := r.map Prod.fst

/-- `ignore_columns_enabled_` as established by `Reader::read`: set
exactly when the ignore set is non-empty. -/
def ignoreColumnsEnabled (d : Dialect) : Bool := !d.ignore_columns_.isEmpty

/-- The row template built in `Reader::read_internal`: one empty-valued
entry per header name, then the ignored columns erased (the erase loop
runs only when ignoring is enabled, but erasing with an empty ignore set
is the identity, so a single filter is faithful). -/
def rowTemplate (headers : List String) (ignore : List String) : Row :=
  (headers.foldl (fun m h => mapUpsert m h []) []).filter
    (fun p => !(ignore.contains p.1))

/-- The per-line assignment loop of `Reader::read_internal`: field `i` is
written to the header-`i` key unless ignoring is enabled and that name is
ignored. -/
def assignFields (d : Dialect) (headers : List String) (row : Row)
    (values : List (List Char)) : Row :=
  (headers.zip values).foldl
    (fun r p =>
      if ignoreColumnsEnabled d && d.ignore_columns_.contains p.1 then r
      else mapUpsert r p.1 p.2) row

/-- The row-eligibility test `row != "" || (!skip_empty_rows && row == "")`. -/
def eligibleRow (skipEmpty : Bool) (l : List Char) : Bool :=
  !l.isEmpty || !skipEmpty

/-- Strip one trailing carriage return, as done for every line read. -/
def stripCR (l : List Char) : List Char :=
  if l.getLastD nulChar = '\r' then l.dropLast else l

/-- The main parse loop of `Reader::read_internal`: stop once the expected
row count is reached; otherwise strip the carriage return, test
eligibility, split, assign into the reused row template and emit a copy. -/
def parseRowsAux (d : Dialect) (columns : Nat) (headers : List String)
    (expected : Nat) : List (List Char) → Row → Nat → List Row
  | [], _, _ => []
  | l :: ls, cur, n =>
      if n = expected then []
      else
        let row := stripCR l
        if eligibleRow d.skip_empty_rows_ row then
          let cur2 := assignFields d headers cur (split d columns row)
          cur2 :: parseRowsAux d columns headers expected ls cur2 (n + 1)
        else parseRowsAux d columns headers expected ls cur n

/-- The parse pass over the data lines, starting from the row template. -/
def parsePass (d : Dialect) (columns : Nat) (headers : List String)
    (expected : Nat) (lines : List (List Char)) : List Row :=
  parseRowsAux d columns headers expected lines
    (rowTemplate headers d.ignore_columns_) 0

/-! ### Row-count pre-scan (`Reader::read`) -/

/-- The pre-scan count: lines (carriage returns stripped) that are
non-empty or not skipped under `skip_empty_rows_`. -/
def prescanCount (d : Dialect) (lines : List (List Char)) : Nat :=
  (lines.map stripCR).countP (eligibleRow d.skip_empty_rows_)

/-- `expected_number_of_rows_` as computed by `Reader::read` when the
caller supplies no row count: the pre-scan count, minus one when a header
row is configured and the count is positive. -/
def readExpectedRows (d : Dialect) (lines : List (List Char)) : Nat :=
  let c := prescanCount d lines
  if d.header_ = true ∧ 0 < c then c - 1 else c

/-- The lines consumed by the main loop: with a header configured the
first line was consumed for the header; otherwise the stream is rewound
and all lines are re-read. -/
def dataLines (d : Dialect) (lines : List (List Char)) :
    List (List Char) :=
  if d.header_ = true then lines.tail else lines

/-- The number of rows emitted by the main loop of
`Reader::read_internal`: the count check runs after each `getline`, so the
loop stops as soon as `expected` rows have been emitted. -/
def mainLoopCount (skipEmpty : Bool) (expected : Nat) :
    List (List Char) → Nat → Nat
  | [], n => n
  | l :: ls, n =>
      if n = expected then n
      else if eligibleRow skipEmpty (stripCR l) then
        mainLoopCount skipEmpty expected ls (n + 1)
      else mainLoopCount skipEmpty expected ls n

/-- Rows emitted by a full `Reader::read` call with `rows = 0`. -/
def emittedRowCount (d : Dialect) (lines : List (List Char)) : Nat :=
  mainLoopCount d.skip_empty_rows_ (readExpectedRows d lines)
    (dataLines d lines) 0

/-! ### Writer (`Writer::write_row`, `Writer::write_header`) -/

/-- The joining loop of `Writer::write_row`: each entry, with the
delimiter between consecutive entries. -/
def joinFields (delim : List Char) : List (List Char) → List Char
  | [] => []
  | [e] => e
  | e :: es => e ++ delim ++ joinFields delim es

/-- One written data row: the joined entries plus the line terminator. -/
def writeRowLine (d : Dialect) (entries : List (List Char)) : List Char :=
  joinFields d.delimiter_ entries ++ [d.line_terminator_]

/-- What `Writer::write_header` writes: nothing when no column names are
configured, else the joined column names plus the line terminator. -/
def headerLine (d : Dialect) : List Char :=
  if d.column_names_.isEmpty then []
  else joinFields d.delimiter_ (d.column_names_.map String.toList) ++
    [d.line_terminator_]

/-- Writer state: the `header_written_` flag and the stream contents. -/
structure WriterState where
  header_written_ : Bool
  out : List Char

/-- `Writer::write_header`. -/
def write_header (d : Dialect) (ws : WriterState) : WriterState :=
  { ws with out := ws.out ++ headerLine d }

/-- `Writer::write_row`: write the header first if not yet written, then
the joined row. -/
def write_row (d : Dialect) (ws : WriterState)
    (entries : List (List Char)) : WriterState :=
  let ws1 :=
    if ws.header_written_ = false then
      { write_header d ws with header_written_ := true }
    else ws
  { ws1 with out := ws1.out ++ writeRowLine d entries }

/-! ### Dialect selection (`Reader::use_dialect`) -/

/-- The part of the reader state that `use_dialect` touches: the current
dialect name and the registry (keyed association list). -/
structure ReaderDialects where
  current_dialect_name_ : String
  dialects_ : List (String × Dialect)

/-- Registry membership (`dialects_.find(name) != dialects_.end()`). -/
def hasDialect (reg : List (String × Dialect)) (name : String) : Bool :=
  reg.any (fun p => p.1 == name)

/-- `Reader::use_dialect`: the name is assigned first; the registry is
checked afterwards, so on a missing name the error is raised with the
state already mutated. -/
def use_dialect (r : ReaderDialects) (name : String) :
    ReaderDialects × Except String Unit :=
  let r2 := { r with current_dialect_name_ := name }
  if hasDialect r.dialects_ name then (r2, Except.ok ())
  else (r2, Except.error ("error: Dialect " ++ name ++ " not found"))

/-! ### Helper lemmas -/

/-- A full delimiter match at the head of the input classifies as
`matched` with the input after the delimiter as rest. -/
theorem classifyAux_take (D : List Char) :
    ∀ l : List Char, List.take D.length l = D →
      classifyAux D l = .matched (List.drop D.length l) := by
  induction D with
  | nil => intro l _; simp [classifyAux]
  | cons d0 ds ih =>
      intro l h
      cases l with
      | nil => simp at h
      | cons c cs =>
          simp only [List.length_cons, List.take_succ_cons,
            List.cons.injEq] at h
          simp [classifyAux, h.1, ih cs h.2]

/-- Flushing an empty accumulator yields an empty field. -/
theorem flushField_nil (d : Dialect) : flushField d [] = [] := by
  simp [flushField, trim, ltrim, rtrim]

/-- The bounded main loop emits `min expected eligible` rows. -/
theorem mainLoopCount_min (s : Bool) (e : Nat) :
    ∀ (ls : List (List Char)) (n : Nat), n ≤ e →
      mainLoopCount s e ls n =
        min e (n + (ls.map stripCR).countP (eligibleRow s)) := by
  intro ls
  induction ls with
  | nil => intro n h; simp [mainLoopCount]; omega
  | cons l t ih =>
      intro n h
      by_cases hn : n = e
      · simp only [mainLoopCount, if_pos hn]
        subst hn
        omega
      · have hlt : n < e := lt_of_le_of_ne h hn
        by_cases he : eligibleRow s (stripCR l) = true
        · simp only [mainLoopCount, if_neg hn, if_pos he]
          rw [ih (n + 1) hlt]
          simp [List.countP_cons, he]
          omega
        · simp only [mainLoopCount, if_neg hn, if_neg he]
          rw [ih n h]
          simp only [List.map_cons, List.countP_cons]
          simp [he]

/-- The writer's joining loop agrees with `List.intercalate`. -/
theorem joinFields_eq_intercalate (delim : List Char) :
    ∀ es : List (List Char),
      joinFields delim es = List.intercalate delim es := by
  intro es
  induction es with
  | nil => simp [joinFields, List.intercalate]
  | cons e t ih =>
      cases t with
      | nil => simp [joinFields, List.intercalate, List.intersperse]
      | cons f u =>
          simp only [joinFields, List.intercalate,
            List.intersperse_cons_cons, List.flatten_cons] at ih ⊢
          rw [ih]
          simp [List.append_assoc]

/-- Once the header flag is set, further `write_row` calls only append
the joined rows. -/
theorem foldl_write_row_written (d : Dialect) :
    ∀ (es : List (List (List Char))) (ws : WriterState),
      ws.header_written_ = true →
      (List.foldl (write_row d) ws es).out =
          ws.out ++ (es.map (writeRowLine d)).flatten ∧
        (List.foldl (write_row d) ws es).header_written_ = true := by
  intro es
  induction es with
  | nil => intro ws h; simpa using h
  | cons e t ih =>
      intro ws h
      have hstep : write_row d ws e =
          { ws with out := ws.out ++ writeRowLine d e } := by
        simp [write_row, h]
      simp only [List.foldl_cons, hstep]
      have := ih { ws with out := ws.out ++ writeRowLine d e } (by simp [h])
      simpa [List.append_assoc] using this

/-! ### Claim C1 -/

/-- Claim C1, scenario as stated, is false: tokenizing `a,"b,c",d` with
the comma/double-quote dialect does not yield the fields
`a`, `b,c`, `d` — the quote characters are retained in the field. -/
theorem C1_counterexample :
    ¬ (split excelDialect 0 ("a,\"b,c\",d".toList) =
        ["a".toList, "b,c".toList, "d".toList]) := by
  decide

/-- Claim C1 amended: a full delimiter match encountered while the
open-quote counter is odd is never accepted as a field separator (the
flushed-fields list is left unchanged by that step); and the scenario line
`a,"b,c",d` tokenizes to the three fields `a`, `"b,c"` (quote characters
retained) and `d`. -/
theorem C1_quoted_delimiter_protected :
    (∀ (d : Dialect) (l : List Char) (res : List (List Char))
        (sub : List Char) (q : Nat),
      d.delimiter_ ≠ [] → List.take d.delimiter_.length l = d.delimiter_ →
      q % 2 = 1 → (splitStep d l res sub q).res = res) ∧
    split excelDialect 0 ("a,\"b,c\",d".toList) =
      ["a".toList, "\"b,c\"".toList, "d".toList] := by
  constructor
  · intro d l res sub q hne htake hodd
    have hclass := classifyAux_take d.delimiter_ l htake
    have hodd' : ¬ (q % 2 = 0) := by omega
    simp only [splitStep, stepClass, List.isEmpty_eq_true, hne,
      if_false, hclass, if_neg hodd']
    cases List.drop d.delimiter_.length l <;> rfl
  · decide

/-- Witness for C1: a concrete odd-counter delimiter match that is not
flushed, and the scenario evaluation. -/
theorem C1_witness :
    (splitStep excelDialect (",x".toList) [] ("\"b".toList) 1).res =
        [] ∧
      split excelDialect 0 ("a,\"b,c\",d".toList) =
        ["a".toList, "\"b,c\"".toList, "d".toList] :=
  ⟨C1_quoted_delimiter_protected.1 excelDialect (",x".toList) []
      ("\"b".toList) 1 (by decide) (by decide) (by decide),
    C1_quoted_delimiter_protected.2⟩

/-! ### Claim C2 -/

/-- Claim C2's failing input, evaluated on the code: with double-quote
escaping enabled, the line `a,"b""c",d` tokenizes to the two fields
`a` and `"b""c",d`.  The doubled quote is kept verbatim (never collapsed
to one quote), and the counter decrement makes the pair change the
counter by net one, so after `"b""` the counter is even and the closing
quote re-opens the span: the comma after it is treated as literal.  This
contradicts the claim's three fields `a`, `b"c`, `d`. -/
theorem C2_double_quote_eval :
    split excelDialect 0 ("a,\"b\"\"c\",d".toList) =
      ["a".toList, "\"b\"\"c\",d".toList] := by
  decide

/-! ### Claim C3 -/

/-- Membership in the keys after an upsert. -/
theorem rowKeys_mapUpsert_mem (k : String) (v : List Char) :
    ∀ (r : Row) (n : String),
      n ∈ rowKeys (mapUpsert r k v) ↔ n ∈ rowKeys r ∨ n = k := by
  intro r
  induction r with
  | nil => intro n; simp [mapUpsert, rowKeys]
  | cons p t ih =>
      intro n
      obtain ⟨k0, v0⟩ := p
      by_cases h : k0 = k
      · subst h
        simp [mapUpsert, rowKeys]
        tauto
      · have h2 := ih n
        simp only [rowKeys, List.map_cons, List.mem_cons] at h2 ⊢
        simp only [mapUpsert, if_neg h, List.map_cons, List.mem_cons]
        rw [h2]
        tauto

/-- An upsert on a present key leaves the key list unchanged. -/
theorem rowKeys_mapUpsert_of_mem (k : String) (v : List Char) :
    ∀ r : Row, k ∈ rowKeys r → rowKeys (mapUpsert r k v) = rowKeys r := by
  intro r
  induction r with
  | nil => intro h; simp [rowKeys] at h
  | cons p t ih =>
      intro h
      obtain ⟨k0, v0⟩ := p
      by_cases hk : k0 = k
      · subst hk; simp [mapUpsert, rowKeys]
      · have h' : k ∈ rowKeys t := by
          simp only [rowKeys, List.map_cons, List.mem_cons] at h
          rcases h with h | h
          · exact absurd h.symm hk
          · exact h
        have h2 := ih h'
        simp only [rowKeys] at h2
        simp [mapUpsert, hk, rowKeys, h2]

/-- Keys accumulated by the template-building fold. -/
theorem rowKeys_foldl_upsert (headers : List String) :
    ∀ (m : Row) (n : String),
      n ∈ rowKeys (headers.foldl (fun m h => mapUpsert m h []) m) ↔
        n ∈ rowKeys m ∨ n ∈ headers := by
  induction headers with
  | nil => intro m n; simp
  | cons h t ih =>
      intro m n
      simp only [List.foldl_cons]
      rw [ih (mapUpsert m h []) n, rowKeys_mapUpsert_mem h [] m n]
      simp only [List.mem_cons]
      tauto

/-- Keys surviving the ignored-column filter. -/
theorem rowKeys_filter_ignore (r : Row) (ignore : List String)
    (n : String) :
    n ∈ rowKeys (r.filter (fun p => !(ignore.contains p.1))) ↔
      n ∈ rowKeys r ∧ ¬ n ∈ ignore := by
  simp only [rowKeys, List.mem_map, List.mem_filter]
  constructor
  · rintro ⟨p, ⟨hp, hi⟩, rfl⟩
    exact ⟨⟨p, hp, rfl⟩, by simpa using hi⟩
  · rintro ⟨⟨p, hp, rfl⟩, hi⟩
    exact ⟨p, ⟨hp, by simpa using hi⟩, rfl⟩

/-- The row template has exactly the header names minus the ignored ones
as keys. -/
theorem rowTemplate_keys_mem (headers ignore : List String) (n : String) :
    n ∈ rowKeys (rowTemplate headers ignore) ↔
      n ∈ headers ∧ ¬ n ∈ ignore := by
  unfold rowTemplate
  rw [rowKeys_filter_ignore, rowKeys_foldl_upsert]
  simp [rowKeys]

/-- The assignment fold never changes the key list when every assigned
name is already a key (or is skipped by the ignore guard). -/
theorem rowKeys_assign_foldl (d : Dialect) :
    ∀ (ps : List (String × List Char)) (r : Row),
      (∀ p ∈ ps, p.1 ∈ rowKeys r ∨
        (ignoreColumnsEnabled d && d.ignore_columns_.contains p.1) = true) →
      rowKeys (ps.foldl
        (fun r p =>
          if ignoreColumnsEnabled d && d.ignore_columns_.contains p.1 then r
          else mapUpsert r p.1 p.2) r) = rowKeys r := by
  intro ps
  induction ps with
  | nil => intro r _; rfl
  | cons p t ih =>
      intro r hyp
      simp only [List.foldl_cons]
      by_cases hg :
          (ignoreColumnsEnabled d && d.ignore_columns_.contains p.1) = true
      · rw [if_pos hg]
        exact ih r (fun q hq => hyp q (List.mem_cons_of_mem _ hq))
      · rw [if_neg hg]
        have hmem : p.1 ∈ rowKeys r := by
          rcases hyp p (List.mem_cons_self _ _) with h | h
          · exact h
          · exact absurd h hg
        have hkeys := rowKeys_mapUpsert_of_mem p.1 p.2 r hmem
        rw [ih (mapUpsert r p.1 p.2) ?_, hkeys]
        intro q hq
        rcases hyp q (List.mem_cons_of_mem _ hq) with h | h
        · left; rw [hkeys]; exact h
        · right; exact h

/-- `assignFields` preserves the key list provided every header name that
is not ignored is already a key of the row. -/
theorem rowKeys_assignFields (d : Dialect) (headers : List String)
    (r : Row) (values : List (List Char))
    (h : ∀ n, n ∈ headers → ¬ n ∈ d.ignore_columns_ → n ∈ rowKeys r) :
    rowKeys (assignFields d headers r values) = rowKeys r := by
  unfold assignFields
  apply rowKeys_assign_foldl
  intro p hp
  have hph : p.1 ∈ headers := (List.of_mem_zip hp).1
  by_cases hi : p.1 ∈ d.ignore_columns_
  · right
    have hne : d.ignore_columns_ ≠ [] := by
      intro habs; rw [habs] at hi; simp at hi
    simp [ignoreColumnsEnabled, List.isEmpty_iff, hne, hi]
  · left; exact h p.1 hph hi

/-- Every row emitted by the main parse loop has the template's keys,
provided the running (reused) row does. -/
theorem parseRowsAux_keys (d : Dialect) (columns : Nat)
    (headers : List String) (expected : Nat) :
    ∀ (lines : List (List Char)) (cur : Row) (n : Nat) (row : Row),
      rowKeys cur = rowKeys (rowTemplate headers d.ignore_columns_) →
      row ∈ parseRowsAux d columns headers expected lines cur n →
      rowKeys row = rowKeys (rowTemplate headers d.ignore_columns_) := by
  intro lines
  induction lines with
  | nil => intro cur n row _ hmem; simp [parseRowsAux] at hmem
  | cons l ls ih =>
      intro cur n row hcur hmem
      by_cases hn : n = expected
      · simp [parseRowsAux, hn] at hmem
      · simp only [parseRowsAux, if_neg hn] at hmem
        by_cases he : eligibleRow d.skip_empty_rows_ (stripCR l) = true
        · rw [if_pos he] at hmem
          have hkeys2 : rowKeys (assignFields d headers cur
              (split d columns (stripCR l))) = rowKeys cur := by
            apply rowKeys_assignFields
            intro m hm hmi
            rw [hcur]
            exact (rowTemplate_keys_mem headers d.ignore_columns_ m).mpr
              ⟨hm, hmi⟩
          rcases List.mem_cons.mp hmem with h | h
          · rw [h, hkeys2, hcur]
          · exact ih _ _ row (by rw [hkeys2, hcur]) h
        · rw [if_neg he] at hmem
          exact ih _ _ row hcur hmem

/-- The pad/truncate step always returns exactly `columns_` fields when
the column count is positive. -/
theorem padTruncate_length (k : Nat) (res : List (List Char))
    (hk : 0 < k) : (padTruncate k res).length = k := by
  unfold padTruncate
  split_ifs with h1 h2
  · simp; omega
  · simp [List.length_take]; omega
  · by_cases h3 : res.length > k
    · exact absurd ⟨h3, by omega⟩ h2
    · omega

/-- Claim C3: with an established header of length `k > 0`, `split`
returns exactly `k` fields for every raw line (padding short rows,
truncating long ones), and every row emitted by the parse pass has
exactly the header names minus the ignored columns as its keys. -/
theorem C3_row_keys (d : Dialect) (headers : List String) (k : Nat)
    (expected : Nat) (lines : List (List Char)) (row : Row)
    (hk : headers.length = k) (hpos : 0 < k)
    (hrow : row ∈ parsePass d k headers expected lines) :
    (∀ n, n ∈ rowKeys row ↔ n ∈ headers ∧ ¬ n ∈ d.ignore_columns_) ∧
      ∀ line, (split d k line).length = k := by
  constructor
  · intro n
    have hkeys := parseRowsAux_keys d k headers expected lines
      (rowTemplate headers d.ignore_columns_) 0 row rfl hrow
    rw [hkeys]
    exact rowTemplate_keys_mem headers d.ignore_columns_ n
  · intro line
    have _ := hk
    exact padTruncate_length k (splitFlush d k line) hpos

/-- Witness for C3: header `[a, b, c]`, `ignore_columns = [b]`; the row
parsed from `1,2,3` has exactly the keys `a` and `c`. -/
theorem C3_witness :
    ((["a", "b", "c"] : List String).length = 3) ∧ (0 < 3) ∧
      ([("a", ['1']), ("c", ['3'])] ∈
        parsePass { defaultDialect with ignore_columns_ := ["b"] } 3
          ["a", "b", "c"] 1 ["1,2,3".toList]) ∧
      ("a" ∈ rowKeys [("a", ['1']), ("c", ['3'])] ↔
        "a" ∈ (["a", "b", "c"] : List String) ∧ ¬ "a" ∈ (["b"] : List String)) ∧
      ("b" ∈ rowKeys [("a", ['1']), ("c", ['3'])] ↔
        "b" ∈ (["a", "b", "c"] : List String) ∧ ¬ "b" ∈ (["b"] : List String)) ∧
      (split { defaultDialect with ignore_columns_ := ["b"] } 3
          ("1,2".toList)).length = 3 := by
  refine ⟨by decide, by decide, by decide, ?_, ?_, ?_⟩
  · exact (C3_row_keys { defaultDialect with ignore_columns_ := ["b"] }
      ["a", "b", "c"] 3 1 ["1,2,3".toList] [("a", ['1']), ("c", ['3'])]
      (by decide) (by decide) (by decide)).1 "a"
  · exact (C3_row_keys { defaultDialect with ignore_columns_ := ["b"] }
      ["a", "b", "c"] 3 1 ["1,2,3".toList] [("a", ['1']), ("c", ['3'])]
      (by decide) (by decide) (by decide)).1 "b"
  · exact (C3_row_keys { defaultDialect with ignore_columns_ := ["b"] }
      ["a", "b", "c"] 3 1 ["1,2,3".toList] [("a", ['1']), ("c", ['3'])]
      (by decide) (by decide) (by decide)).2 ("1,2".toList)

/-! ### Claims C4 and C8: the no-quote, single-character-delimiter case -/

/-- The naive split never returns an empty field list. -/
theorem naiveSplitCh_ne_nil (c : Char) :
    ∀ l : List Char, naiveSplitCh c l ≠ [] := by
  intro l
  cases l with
  | nil => simp [naiveSplitCh]
  | cons x xs =>
      by_cases h : x = c <;> simp [naiveSplitCh, h]

/-- The first naive field extended on the left by `sub`, then the
remaining naive fields: the loop invariant shape of the scan state. -/
def naiveFields (c : Char) (sub l : List Char) : List (List Char) :=
  (sub ++ (naiveSplitCh c l).headD []) :: (naiveSplitCh c l).tail

/-- The fuel-based naive split on a one-character delimiter is the naive
single-character split. -/
theorem naiveSplitSeqF_single (c : Char) :
    ∀ (fuel : Nat) (l : List Char), l.length ≤ fuel →
      naiveSplitSeqF [c] fuel l = naiveSplitCh c l := by
  intro fuel
  induction fuel with
  | zero =>
      intro l hl
      have : l = [] := by
        cases l with
        | nil => rfl
        | cons x xs => simp at hl
      subst this
      rfl
  | succ fuel ih =>
      intro l hl
      cases l with
      | nil => rfl
      | cons x xs =>
          have hxs : xs.length ≤ fuel := by
            simp only [List.length_cons] at hl; omega
          by_cases h : x = c
          · subst h
            simp [naiveSplitSeqF, naiveSplitCh, ih xs hxs]
          · have hcond : ¬ (([c] : List Char) ≠ [] ∧
                List.take ([c] : List Char).length (x :: xs) = [c]) := by
              simp [h]
            simp [naiveSplitSeqF, naiveSplitCh, hcond, h, ih xs hxs]

/-- The naive split on a one-character delimiter agrees with the naive
substring split instantiated at that delimiter. -/
theorem naiveSplitSeq_single (c : Char) (l : List Char) :
    naiveSplitSeq [c] l = naiveSplitCh c l :=
  naiveSplitSeqF_single c l.length l le_rfl

/-- Scan invariant: on input without the quote character, under a
one-character delimiter and with space skipping off, the loop flushes
exactly the (trimmed) naive fields, keeping the last naive field in the
accumulator. -/
theorem splitLoopF_single_noquote (d : Dialect) (c : Char)
    (hdelim : d.delimiter_ = [c]) (hskip : d.skip_initial_space_ = false) :
    ∀ (fuel : Nat) (l : List Char) (res : List (List Char))
      (sub : List Char), l.length ≤ fuel →
      (∀ ch ∈ l, ch ≠ d.quote_character_) →
      splitLoopF d fuel l res sub 0 =
        (res ++ ((naiveFields c sub l).dropLast.map (flushField d)),
          (naiveFields c sub l).getLastD []) := by
  intro fuel
  induction fuel with
  | zero =>
      intro l res sub hl _
      have : l = [] := by
        cases l with
        | nil => rfl
        | cons x xs => simp at hl
      subst this
      simp [splitLoopF, naiveFields, naiveSplitCh]
  | succ fuel ih =>
      intro l res sub hl hq
      cases l with
      | nil => simp [splitLoopF, naiveFields, naiveSplitCh]
      | cons x xs =>
          have hxs : xs.length ≤ fuel := by
            simp only [List.length_cons] at hl; omega
          have hxQ : x ≠ d.quote_character_ :=
            hq x (List.mem_cons_self _ _)
          have hqxs : ∀ ch ∈ xs, ch ≠ d.quote_character_ :=
            fun ch hch => hq ch (List.mem_cons_of_mem _ hch)
          by_cases hx : x = c
          · have hcQ : ¬ (c = d.quote_character_) := hx ▸ hxQ
            have hstep : splitStep d (x :: xs) res sub 0 =
                ⟨xs, res ++ [flushField d sub], [], 0⟩ := by
              simp [splitStep, stepClass, hdelim, classifyAux, hx, hskip,
                dlastOf, quoteUpd, hcQ]
            have hun : splitLoopF d (fuel + 1) (x :: xs) res sub 0 =
                splitLoopF d fuel xs (res ++ [flushField d sub]) [] 0 := by
              simp only [splitLoopF, hstep]
            rw [hun, ih xs (res ++ [flushField d sub]) [] hxs hqxs]
            cases hN : naiveSplitCh c xs with
            | nil => exact absurd hN (naiveSplitCh_ne_nil c xs)
            | cons f fs =>
                have h1 : naiveFields c sub (x :: xs) = sub :: f :: fs := by
                  simp [naiveFields, naiveSplitCh, hx, hN]
                have h2 : naiveFields c [] xs = f :: fs := by
                  simp [naiveFields, hN]
                rw [h1, h2]
                simp [List.getLastD_cons]
          · have hstep : splitStep d (x :: xs) res sub 0 =
                ⟨xs, res, sub ++ [x], 0⟩ := by
              simp [splitStep, stepClass, hdelim, classifyAux, hx,
                quoteUpd, hxQ]
            have hun : splitLoopF d (fuel + 1) (x :: xs) res sub 0 =
                splitLoopF d fuel xs res (sub ++ [x]) 0 := by
              simp only [splitLoopF, hstep]
            rw [hun, ih xs res (sub ++ [x]) hxs hqxs]
            have hfields : naiveFields c sub (x :: xs) =
                naiveFields c (sub ++ [x]) xs := by
              simp [naiveFields, naiveSplitCh, hx]
            rw [hfields]

/-- On a line without the quote character, with a one-character delimiter
and space skipping off, `Reader::split` is the naive single-character
split with the trailing empty field dropped, each field trimmed, and the
result padded/truncated to the column count. -/
theorem split_single_noquote (d : Dialect) (c : Char) (k : Nat)
    (line : List Char) (hdelim : d.delimiter_ = [c])
    (hskip : d.skip_initial_space_ = false)
    (hq : ∀ ch ∈ line, ch ≠ d.quote_character_) :
    split d k line =
      padTruncate k
        ((dropTrailingEmptyField (naiveSplitCh c line)).map
          (flushField d)) := by
  cases hline : line with
  | nil =>
      subst hline
      have h0 : splitFlush d k [] = List.replicate k [] := by
        simp [splitFlush, splitRaw, splitLoopF]
      have hdrop : dropTrailingEmptyField (naiveSplitCh c []) = [] := by
        simp [naiveSplitCh, dropTrailingEmptyField]
      rcases Nat.eq_zero_or_pos k with hk | hk
      · subst hk
        simp [split, h0, hdrop, padTruncate]
      · simp only [split, h0, hdrop, List.map_nil]
        simp [padTruncate, hk]
  | cons x xs =>
      subst hline
      have hmain := splitLoopF_single_noquote d c hdelim hskip
        (x :: xs).length (x :: xs) [] [] le_rfl hq
      cases hN : naiveSplitCh c (x :: xs) with
      | nil => exact absurd hN (naiveSplitCh_ne_nil c (x :: xs))
      | cons f fs =>
          have hfields : naiveFields c [] (x :: xs) = f :: fs := by
            simp [naiveFields, hN]
          rcases List.eq_nil_or_concat (f :: fs) with habs | ⟨M, a, hMa⟩
          · simp at habs
          · rw [List.concat_eq_append] at hMa
            have hsub2 : (naiveFields c [] (x :: xs)).getLastD [] = a := by
              rw [hfields, hMa]; simp
            have hres1 : (naiveFields c [] (x :: xs)).dropLast = M := by
              rw [hfields, hMa]; simp
            have hraw : splitRaw d k (x :: xs) =
                (M.map (flushField d), a) := by
              have hinit : splitRaw d k (x :: xs) =
                  splitLoopF d (x :: xs).length (x :: xs) [] [] 0 := by
                simp [splitRaw]
              rw [hinit, hmain, hres1, hsub2]
              simp
            by_cases ha : a = []
            · subst ha
              have hdrop : dropTrailingEmptyField (f :: fs) = M := by
                rw [hMa]
                simp [dropTrailingEmptyField]
              have hflush : splitFlush d k (x :: xs) =
                  M.map (flushField d) := by
                simp [splitFlush, hraw]
              simp only [split, hflush, hN, hdrop]
            · obtain ⟨y, ys, hy⟩ : ∃ y ys, a = y :: ys := by
                cases a with
                | nil => exact absurd rfl ha
                | cons y ys => exact ⟨y, ys, rfl⟩
              have hdrop : dropTrailingEmptyField (f :: fs) = M ++ [a] := by
                rw [hMa, hy]
                simp [dropTrailingEmptyField]
              have hflush : splitFlush d k (x :: xs) =
                  M.map (flushField d) ++ [flushField d a] := by
                simp [splitFlush, hraw, hy]
              simp only [split, hflush, hN, hdrop, List.map_append,
                List.map_cons, List.map_nil]

/-- Claim C4, as stated, is false: with the two-character delimiter `;;`
the line `a;b` (which contains no quote character and no full delimiter
occurrence) tokenizes to the single field `ab` — the inner matching loop
consumes the partially-matched `;` without appending it — while the naive
reference split returns `a;b`. -/
theorem C4_counterexample :
    (¬ '"' ∈ "a;b".toList) ∧
      ¬ (split { defaultDialect with delimiter_ := [';', ';'] } 0
          ("a;b".toList) =
        specNaiveTokenize { defaultDialect with delimiter_ := [';', ';'] } 0
          ("a;b".toList)) := by
  decide

/-- Claim C4 amended: the equivalence with the naive split holds for
one-character delimiters (with space skipping off), additionally modulo
the drop of a trailing empty field before padding: on any line without
the quote character, `split` is the naive split with a trailing empty
field dropped, fields trimmed as configured, padded/truncated to the
column count. -/
theorem C4_naive_split_single (d : Dialect) (c : Char) (k : Nat)
    (line : List Char) (hdelim : d.delimiter_ = [c])
    (hskip : d.skip_initial_space_ = false)
    (hq : ∀ ch ∈ line, ch ≠ d.quote_character_) :
    split d k line =
      padTruncate k
        ((dropTrailingEmptyField (naiveSplitSeq [c] line)).map
          (flushField d)) := by
  rw [naiveSplitSeq_single]
  exact split_single_noquote d c k line hdelim hskip hq

/-- Witness for C4: the comma dialect on `x,y`. -/
theorem C4_witness :
    split excelDialect 0 ("x,y".toList) =
      padTruncate 0
        ((dropTrailingEmptyField (naiveSplitSeq [','] ("x,y".toList))).map
          (flushField excelDialect)) :=
  C4_naive_split_single excelDialect ',' 0 ("x,y".toList) (by decide)
    (by decide) (by decide)

/-! ### Claim C8 -/

/-- `flushField` is the identity when no trim characters are set. -/
theorem flushField_of_no_trim (d : Dialect)
    (htrim : d.trim_characters_ = []) (s : List Char) :
    flushField d s = s := by
  simp [flushField, trimmingEnabled, htrim]

/-- The naive split of a delimiter-free field is that one field. -/
theorem naiveSplitCh_no_delim (c : Char) :
    ∀ f : List Char, ¬ c ∈ f → naiveSplitCh c f = [f] := by
  intro f
  induction f with
  | nil => intro _; rfl
  | cons x xs ih =>
      intro h
      simp only [List.mem_cons, not_or] at h
      obtain ⟨h1, h2⟩ := h
      have hx : ¬ x = c := fun hh => h1 hh.symm
      simp [naiveSplitCh, hx, ih h2]

/-- The naive split of `f ++ c :: rest` with `c ∉ f` starts with `f`. -/
theorem naiveSplitCh_append_delim (c : Char) :
    ∀ (f rest : List Char), ¬ c ∈ f →
      naiveSplitCh c (f ++ c :: rest) = f :: naiveSplitCh c rest := by
  intro f
  induction f with
  | nil => intro rest _; simp [naiveSplitCh]
  | cons x xs ih =>
      intro rest h
      simp only [List.mem_cons, not_or] at h
      obtain ⟨h1, h2⟩ := h
      have hx : ¬ x = c := fun hh => h1 hh.symm
      simp [naiveSplitCh, hx, ih rest h2]

/-- The naive split inverts the writer's join when no field contains the
delimiter character. -/
theorem naiveSplitCh_joinFields (c : Char) :
    ∀ fields : List (List Char), fields ≠ [] →
      (∀ f ∈ fields, ¬ c ∈ f) →
      naiveSplitCh c (joinFields [c] fields) = fields := by
  intro fields
  induction fields with
  | nil => intro h _; exact absurd rfl h
  | cons f rest ih =>
      intro _ hall
      cases rest with
      | nil =>
          simpa [joinFields] using
            naiveSplitCh_no_delim c f (hall f (by simp))
      | cons g t =>
          have hjoin : joinFields [c] (f :: g :: t) =
              f ++ c :: joinFields [c] (g :: t) := by
            simp [joinFields]
          rw [hjoin, naiveSplitCh_append_delim c f _ (hall f (by simp)),
            ih (by simp) (fun x hx => hall x (List.mem_cons_of_mem _ hx))]

/-- Every character of a joined line is a delimiter character or a
character of one of the fields. -/
theorem mem_joinFields (delim : List Char) :
    ∀ (fs : List (List Char)) (ch : Char), ch ∈ joinFields delim fs →
      ch ∈ delim ∨ ∃ f ∈ fs, ch ∈ f := by
  intro fs
  induction fs with
  | nil => intro ch h; simp [joinFields] at h
  | cons f rest ih =>
      intro ch h
      cases rest with
      | nil =>
          right
          exact ⟨f, by simp, by simpa [joinFields] using h⟩
      | cons g t =>
          rw [show joinFields delim (f :: g :: t) =
              f ++ delim ++ joinFields delim (g :: t) from rfl] at h
          simp only [List.append_assoc, List.mem_append] at h
          rcases h with h | h | h
          · right; exact ⟨f, by simp, h⟩
          · left; exact h
          · rcases ih ch h with h2 | ⟨f2, hf2, hch2⟩
            · left; exact h2
            · right; exact ⟨f2, List.mem_cons_of_mem _ hf2, hch2⟩

/-- Padding/truncating a list already of the right length is the
identity. -/
theorem padTruncate_self (k : Nat) (res : List (List Char))
    (h : res.length = k) : padTruncate k res = res := by
  simp [padTruncate, h]

/-- Padding restores exactly one dropped trailing empty field. -/
theorem padTruncate_restore (k : Nat) (M : List (List Char))
    (h : M.length + 1 = k) : padTruncate k M = M ++ [[]] := by
  unfold padTruncate
  rw [if_pos (by omega)]
  have h1 : k - M.length = 1 := by omega
  rw [h1]
  rfl

/-- Claim C8, as stated, is false: with the two-character delimiter `;;`
and the fields `a;` and `b` — neither containing `;;` as a substring nor
the quote character — joining and re-tokenizing yields `a` and `b`: the
partially-matched `;` of the first field is consumed by the delimiter
matcher and dropped. -/
theorem C8_counterexample :
    (containsSeq [';', ';'] ("a;".toList) = false) ∧
      (containsSeq [';', ';'] ("b".toList) = false) ∧
      (¬ '"' ∈ "a;".toList) ∧ (¬ '"' ∈ "b".toList) ∧
      ((["a;".toList, "b".toList] : List (List Char)).length = 2) ∧
      ¬ (split { defaultDialect with delimiter_ := [';', ';'] } 2
          (joinFields
            ({ defaultDialect with delimiter_ := [';', ';'] } :
              Dialect).delimiter_
            ["a;".toList, "b".toList]) =
        ["a;".toList, "b".toList]) := by
  decide

/-- Claim C8 amended: for a one-character delimiter distinct from the
quote character, with trimming disabled and space skipping off, joining a
field sequence of the established column length whose fields contain
neither the delimiter nor the quote character and re-tokenizing under the
same dialect reproduces the original fields. -/
theorem C8_round_trip_single (d : Dialect) (c : Char) (k : Nat)
    (fields : List (List Char))
    (hdelim : d.delimiter_ = [c]) (hskip : d.skip_initial_space_ = false)
    (htrim : d.trim_characters_ = []) (hcq : c ≠ d.quote_character_)
    (hf : ∀ f ∈ fields, ¬ c ∈ f ∧ ¬ d.quote_character_ ∈ f)
    (hlen : fields.length = k) :
    split d k (joinFields d.delimiter_ fields) = fields := by
  rw [hdelim]
  cases fields with
  | nil =>
      have hk : k = 0 := by simpa using hlen.symm
      subst hk
      simp [joinFields, split, splitFlush, splitRaw, splitLoopF,
        padTruncate]
  | cons f rest =>
      have hne : (f :: rest : List (List Char)) ≠ [] := by simp
      have hjq : ∀ ch ∈ joinFields [c] (f :: rest),
          ch ≠ d.quote_character_ := by
        intro ch hch habs
        rcases mem_joinFields [c] (f :: rest) ch hch with hd | ⟨f2, hf2, hch2⟩
        · have hc : ch = c := by simpa using hd
          exact hcq (hc ▸ habs)
        · exact (hf f2 hf2).2 (habs ▸ hch2)
      rw [split_single_noquote d c k _ hdelim hskip hjq,
        naiveSplitCh_joinFields c (f :: rest) hne
          (fun f2 h2 => (hf f2 h2).1)]
      have hfun : flushField d = id :=
        funext (flushField_of_no_trim d htrim)
      rw [hfun, List.map_id]
      rcases List.eq_nil_or_concat (f :: rest) with h | ⟨M, a, hMa⟩
      · exact absurd h hne
      · rw [List.concat_eq_append] at hMa
        have hlen2 : (M ++ [a]).length = k := by rw [← hMa]; exact hlen
        by_cases ha : a = []
        · subst ha
          rw [hMa]
          have hdrop : dropTrailingEmptyField (M ++ [[]]) = M := by
            simp [dropTrailingEmptyField]
          rw [hdrop]
          apply padTruncate_restore
          simpa using hlen2
        · obtain ⟨y, ys, hy⟩ : ∃ y ys, a = y :: ys := by
            cases a with
            | nil => exact absurd rfl ha
            | cons y ys => exact ⟨y, ys, rfl⟩
          rw [hMa]
          have hdrop : dropTrailingEmptyField (M ++ [a]) = M ++ [a] := by
            rw [hy]
            simp [dropTrailingEmptyField]
          rw [hdrop]
          exact padTruncate_self k (M ++ [a]) hlen2

/-- Witness for C8: the comma dialect round-trips the fields `x`, `y`. -/
theorem C8_witness :
    split excelDialect 2
        (joinFields excelDialect.delimiter_ ["x".toList, "y".toList]) =
      ["x".toList, "y".toList] :=
  C8_round_trip_single excelDialect ',' 2 ["x".toList, "y".toList]
    (by decide) (by decide) (by decide) (by decide) (by decide) (by decide)

/-! ### Claim C5 -/

/-- Claim C5: when the scan ends with an empty accumulator (as after a
line ending in an accepted delimiter match), the end-of-line flush adds
nothing: the pre-pad result equals the loop's flushed fields, and an
always-flushing variant would give exactly one more (empty) field. -/
theorem C5_trailing_empty_not_flushed (d : Dialect) (k : Nat)
    (line : List Char) (_hne : line ≠ [])
    (hsub : (splitRaw d k line).2 = []) :
    splitFlush d k line = (splitRaw d k line).1 ∧
      splitFlushAll d k line = splitFlush d k line ++ [[]] ∧
      (splitFlushAll d k line).length = (splitFlush d k line).length + 1 := by
  have h1 : splitFlush d k line = (splitRaw d k line).1 := by
    simp [splitFlush, hsub]
  refine ⟨h1, ?_, ?_⟩
  · simp [splitFlushAll, h1, hsub, flushField_nil]
  · simp [splitFlushAll, h1, hsub, flushField_nil]

/-- Witness for C5: the line `a,` under the comma dialect ends in an
accepted delimiter; the final empty field is dropped before padding. -/
theorem C5_witness :
    ("a,".toList ≠ ([] : List Char)) ∧
      splitFlush excelDialect 0 ("a,".toList) =
          (splitRaw excelDialect 0 ("a,".toList)).1 ∧
        splitFlushAll excelDialect 0 ("a,".toList) =
            splitFlush excelDialect 0 ("a,".toList) ++ [[]] ∧
          (splitFlushAll excelDialect 0 ("a,".toList)).length =
            (splitFlush excelDialect 0 ("a,".toList)).length + 1 :=
  ⟨by decide,
    C5_trailing_empty_not_flushed excelDialect 0 ("a,".toList)
      (by decide) (by decide)⟩

/-! ### Claim C6 -/

/-- Claim C6: with an established column count `k > 0`, the entirely
empty input line tokenizes to exactly `k` empty fields. -/
theorem C6_empty_line_padded (d : Dialect) (k : Nat) (_hk : 0 < k) :
    split d k [] = List.replicate k [] := by
  simp [split, splitFlush, splitRaw, splitLoopF, padTruncate]

/-- Witness for C6: column count three gives three empty fields, not a
single empty field. -/
theorem C6_witness :
    (0 < 3) ∧ split excelDialect 3 [] = [[], [], []] ∧
      split excelDialect 3 [] ≠ [[]] := by
  refine ⟨by decide, ?_, ?_⟩
  · have h := C6_empty_line_padded excelDialect 3 (by decide)
    simpa using h
  · have h := C6_empty_line_padded excelDialect 3 (by decide)
    rw [h]; decide

/-! ### Claim C7 -/

/-- Claim C7: with no caller-supplied row count, the expected row count
is the pre-scan count of eligible lines minus one when a header is
configured (and the count positive), and the main loop emits exactly
`min expected (eligible data lines)` rows. -/
theorem C7_prescan_bounds_rows (d : Dialect) (lines : List (List Char)) :
    emittedRowCount d lines =
        min (readExpectedRows d lines)
          (prescanCount d (dataLines d lines)) ∧
      readExpectedRows d lines =
        (if d.header_ = true ∧ 0 < prescanCount d lines then
          prescanCount d lines - 1
        else prescanCount d lines) := by
  constructor
  · unfold emittedRowCount
    rw [mainLoopCount_min _ _ _ 0 (Nat.zero_le _)]
    simp [prescanCount]
  · rfl

/-! ### Claim C9 -/

/-- Claim C9: a written row is exactly the entries joined with the
delimiter and terminated by the line terminator (no quoting or escaping),
and over any non-empty sequence of `write_row` calls the header line is
emitted exactly once, before the first row and never again. -/
theorem C9_write_row_join (d : Dialect) :
    (∀ entries, writeRowLine d entries =
        List.intercalate d.delimiter_ entries ++ [d.line_terminator_]) ∧
      ∀ (e : List (List Char)) (es : List (List (List Char))),
        (List.foldl (write_row d) ⟨false, []⟩ (e :: es)).out =
          headerLine d ++ writeRowLine d e ++
            (es.map (writeRowLine d)).flatten := by
  constructor
  · intro entries
    simp [writeRowLine, joinFields_eq_intercalate]
  · intro e es
    have hfirst : write_row d ⟨false, []⟩ e =
        ⟨true, headerLine d ++ writeRowLine d e⟩ := by
      simp [write_row, write_header]
    simp only [List.foldl_cons, hfirst]
    have := foldl_write_row_written d es
      ⟨true, headerLine d ++ writeRowLine d e⟩ rfl
    simpa [List.append_assoc] using this.1

/-! ### Claim C10 -/

/-- Claim C10: `use_dialect` assigns the current dialect name before the
registry check.  For an unregistered name it raises the error with the
name already assigned (the pre-call state is not restored); for a
registered name it returns normally with the name assigned. -/
theorem C10_use_dialect_order (r : ReaderDialects) (name : String) :
    (use_dialect r name).1.current_dialect_name_ = name ∧
      (hasDialect r.dialects_ name = false →
        (use_dialect r name).2 =
          Except.error ("error: Dialect " ++ name ++ " not found")) ∧
      (hasDialect r.dialects_ name = true →
        (use_dialect r name).2 = Except.ok ()) := by
  refine ⟨?_, ?_, ?_⟩
  · unfold use_dialect
    by_cases h : hasDialect r.dialects_ name <;> simp [h]
  · intro h; simp [use_dialect, h]
  · intro h; simp [use_dialect, h]

/-- Witness for C10: selecting the unregistered name `nope` throws, and
the current dialect name is left as `nope`. -/
theorem C10_witness :
    (use_dialect ⟨"excel", [("excel", defaultDialect)]⟩
          "nope").1.current_dialect_name_ = "nope" ∧
      (use_dialect ⟨"excel", [("excel", defaultDialect)]⟩ "nope").2 =
        Except.error ("error: Dialect " ++ "nope" ++ " not found") :=
  ⟨(C10_use_dialect_order ⟨"excel", [("excel", defaultDialect)]⟩
      "nope").1,
    (C10_use_dialect_order ⟨"excel", [("excel", defaultDialect)]⟩
      "nope").2.1 (by decide)⟩

end Csv
